import Mathlib

/-!
Verification of the Wordle advisor: a shallow embedding of the two source
modules (the heuristic, frequency-based session and the exact,
partition-based session) together with proofs about the feedback encoder,
the hint filter, the two scorers and the ranker.

Conventions of the embedding:
  * a word is a list of characters (Python strings are iterated per char);
  * the `Counter` over the target is a total function `Char → Int`
    (`.get(char, 0)` gives 0 for absent keys);
  * Python sets of words are lists (only membership and filtering matter);
  * `assert` failures surface as `Except.error`;
  * numpy float entropy is modelled over the reals.
-/

namespace Wordle

abbrev Word := List Char

/-! ### The feedback encoder (`Wordle.get_label` of wordle_exact.py)

Two passes over the guess: pass 1 marks exact positional matches with `'2'`
and decrements that letter's remaining count; pass 2 marks `'1'` at the
not-yet-correct positions whose letter still has a positive remaining
count, decrementing as it goes; everything else stays `'0'`. -/

/-- `char_counts[char] -= 1` on the counter. -/
def decr (cnt : Char → Int) (c : Char) : Char → Int :=
  fun d => if d = c then cnt d - 1 else cnt d

/-- Pass 1: walk guess and target together; on `target[pos] == char` emit
`'2'` and decrement the counter, else emit `'0'`.  Returns the label list
and the counter left for pass 2. -/
def pass1 : List Char → List Char → (Char → Int) → List Char × (Char → Int)
  | g :: gs, t :: ts, cnt =>
    if t = g then
      let r := pass1 gs ts (decr cnt g)
      ('2' :: r.1, r.2)
    else
      let r := pass1 gs ts cnt
      ('0' :: r.1, r.2)
  | _, _, cnt => ([], cnt)

/-- Pass 2: walk the guess and the pass-1 labels; where the label is not
`'2'` and the remaining count of the guess letter is positive, emit `'1'`
and decrement, else keep the pass-1 label. -/
def pass2 : List Char → List Char → (Char → Int) → List Char
  | g :: gs, a :: as, cnt =>
    if a ≠ '2' ∧ 0 < cnt g then '1' :: pass2 gs as (decr cnt g)
    else a :: pass2 gs as cnt
  | _, _, _ => []

/-- `get_label(word, target)`: the two-pass Wordle feedback encoding, with
the counter initialised to `Counter(target)`. -/
def get_label (word target : List Char) : List Char :=
  let r := pass1 word target (fun c => (target.count c : Int))
  pass2 word r.1 r.2

/-! ### The exact session (wordle_exact.py)

State: the chronological hint list and, per pool name, the pair
`[original list, pruned list]` that `read_initial_words` builds. -/

/-- A word satisfies every recorded hint `(hword, hlabel)` when
`get_label hword word == hlabel` for each. -/
def satHints (hints : List (Word × Word)) (w : Word) : Bool :=
  hints.all fun h => get_label h.1 w == h.2

/-- `prune_words`: keep only the words satisfying all the hints so far. -/
def prune_words (hints : List (Word × Word)) (words : List Word) : List Word :=
  words.filter (satHints hints)

structure ExactState where
  hints : List (Word × Word)
  words : List (String × (List Word × List Word))

/-- `read_initial_words`: every pool starts as `[words, words]`. -/
def initExactState (pools : List (String × List Word)) : ExactState :=
  { hints := [], words := pools.map fun p => (p.1, (p.2, p.2)) }

/-- `add_word_hint` of the exact session: append the hint, then replace the
pruned copy (`words[1]`) of every pool by its pruning under all hints;
`words[0]` is untouched.  No validation is performed. -/
def exact_add_word_hint (word label : Word) (s : ExactState) : ExactState :=
  let hints := s.hints ++ [(word, label)]
  { hints := hints
    words := s.words.map fun p => (p.1, (p.2.1, prune_words hints p.2.2)) }

/-- `self.words[searchtype][pruned]` (index 1 = pruned copy). -/
def poolWords (s : ExactState) (searchtype : String) (pruned : Bool) : List Word :=
  match s.words.lookup searchtype with
  | some p => if pruned then p.2 else p.1
  | none => []

/-- `Counter(L)[p]`: how many elements of `L` equal `p`. -/
def countOcc {α : Type} [DecidableEq α] (L : List α) (p : α) : Nat :=
  (L.filter fun q => q = p).length

/-- `get_score(word)`: partition the answer list by the label the word
would get against each answer, and sum the squared partition sizes. -/
def get_score (word : Word) (answers : List Word) : Nat :=
  let labels := answers.map fun w => get_label word w
  (labels.dedup.map fun p => countOcc labels p ^ 2).sum

/-- The multiset of partition sizes behind `get_score` (the values of the
`Counter` over the computed labels). -/
def partitionSizes (word : Word) (answers : List Word) : List Nat :=
  let labels := answers.map fun w => get_label word w
  labels.dedup.map fun p => countOcc labels p

/-! ### The heuristic session (wordle.py)

Its mutable state is the candidate answer set; the character statistics
are recomputed from it after every change, so they are modelled as pure
functions of the candidate list. -/

/-- The spec's `InvalidInputError` (an `assert` failure in the source). -/
inductive WordleError where
  | invalidInput : WordleError

/-- The body of the `add_char_hint` filter loop: whether `word` survives
the hint (`char`, `label`, `pos`).  Mirrors the three `continue` tests. -/
def keepChar (char label : Char) (pos : Nat) (word : Word) : Bool :=
  let charinword := word.contains char
  if label = '0' ∧ charinword then false
  else if label = '1' ∧ (charinword = false ∨ word[pos]? = some char) then false
  else if label = '2' ∧ (charinword = false ∨ word[pos]? ≠ some char) then false
  else true

/-- `add_char_hint`: rebuild the candidate set, keeping the surviving words. -/
def add_char_hint (char label : Char) (pos : Nat) (answers : List Word) : List Word :=
  answers.filter (keepChar char label pos)

/-- The loop `for pos, (char, label) in enumerate(zip(word, label))` of
`add_word_hint`, applied to the candidate set. -/
def apply_char_hints (word label : Word) (answers : List Word) : List Word :=
  ((word.zip label).enum).foldl
    (fun ws p => add_char_hint p.2.1 p.2.2 p.1 ws) answers

/-- The loop `for char in label: assert char in ['0','1','2']`. -/
def checkLabelChars : List Char → Except WordleError Unit
  | [] => Except.ok ()
  | c :: cs =>
    if c = '0' ∨ c = '1' ∨ c = '2' then checkLabelChars cs
    else Except.error WordleError.invalidInput

/-- `add_word_hint` of the heuristic session: validate the label symbols,
then the lengths, then apply the per-character hints. -/
def heur_add_word_hint (word label : Word) (answers : List Word) :
    Except WordleError (List Word) :=
  match checkLabelChars label with
  | Except.error e => Except.error e
  | Except.ok _ =>
    if word.length = label.length then
      Except.ok (apply_char_hints word label answers)
    else Except.error WordleError.invalidInput

/-- `self.chars`: the characters occurring in some candidate word. -/
def inChars (answers : List Word) (c : Char) : Bool :=
  answers.any fun w => w.contains c

/-- `char_in_counts[c]`: candidates containing `c`. -/
def char_in_count (answers : List Word) (c : Char) : Nat :=
  (answers.filter fun w => w.contains c).length

/-- `char_notin_counts[c]`: candidates not containing `c`. -/
def char_notin_count (answers : List Word) (c : Char) : Nat :=
  (answers.filter fun w => !(w.contains c)).length

/-- `char_pos_counts[c][pos]`: candidates with `c` at position `pos`. -/
def char_pos_count (answers : List Word) (c : Char) (pos : Nat) : Nat :=
  (answers.filter fun w => w[pos]? = some c).length

/-- `get_information`: drop the zero counts, normalise, and return the
Shannon entropy `-Σ p log p` (0 when every count is zero). -/
noncomputable def get_information (event_counts : List Nat) : ℝ :=
  let pos := event_counts.filter fun n => 0 < n
  if pos = [] then 0
  else
    let s : ℝ := (pos.map fun n : Nat => (n : ℝ)).sum;
    let info : ℝ := (pos.map fun n : Nat => ((n : ℝ) / s) * Real.log ((n : ℝ) / s)).sum;
    -info

/-- `get_char_info`: whole-word presence information of a letter. -/
noncomputable def get_char_info (answers : List Word) (c : Char) : ℝ :=
  if inChars answers c then
    get_information [char_in_count answers c, char_notin_count answers c]
  else 0

/-- `get_char_pos_info_approx`: positional-presence information of a
letter at a position (three-way event distribution). -/
noncomputable def get_char_pos_info_approx (answers : List Word) (c : Char) (pos : Nat) : ℝ :=
  if inChars answers c then
    get_information [char_pos_count answers c pos,
      char_in_count answers c - char_pos_count answers c pos,
      char_notin_count answers c]
  else 0

/-- One iteration of the `get_word_info_approx` loop: add the positional
information of the letter; if the letter already occurred in the guess
(the `wordchars` set, second component), subtract its whole-word presence
information, else record it as seen. -/
noncomputable def wordInfoStep (answers : List Word) (st : ℝ × List Char)
    (pc : Nat × Char) : ℝ × List Char :=
  let info := st.1 + get_char_pos_info_approx answers pc.2 pc.1
  if pc.2 ∈ st.2 then (info - get_char_info answers pc.2, st.2)
  else (info, st.2 ++ [pc.2])

/-- `get_word_info_approx`: fold the per-position step over the enumerated
guess, starting from zero information and no seen letters. -/
noncomputable def get_word_info_approx (answers : List Word) (word : Word) : ℝ :=
  (word.enum.foldl (wordInfoStep answers) (0, [])).1

/-! ### The ranker (`predict` of both sessions)

`np.argsort` is modelled as the stable ascending argsort: indices ordered
by score, ties by index. -/

/-- The order `argsort` establishes on indices of the key list: strictly
smaller key, or equal key and not-later index. -/
def argRel {α : Type} [LinearOrder α] [Inhabited α] (keys : List α) (i j : Nat) : Prop :=
  keys.getD i default < keys.getD j default ∨
    (keys.getD i default = keys.getD j default ∧ i ≤ j)

instance argRelDecidable {α : Type} [LinearOrder α] [Inhabited α] (keys : List α) :
    DecidableRel (argRel keys) := fun _ _ => by
  unfold argRel; infer_instance

instance argRelTotal {α : Type} [LinearOrder α] [Inhabited α] (keys : List α) :
    IsTotal Nat (argRel keys) where
  total i j := by
    unfold argRel
    rcases lt_trichotomy (keys.getD i default) (keys.getD j default) with h | h | h
    · exact Or.inl (Or.inl h)
    · rcases Nat.le_total i j with hij | hij
      · exact Or.inl (Or.inr ⟨h, hij⟩)
      · exact Or.inr (Or.inr ⟨h.symm, hij⟩)
    · exact Or.inr (Or.inl h)

instance argRelTrans {α : Type} [LinearOrder α] [Inhabited α] (keys : List α) :
    IsTrans Nat (argRel keys) where
  trans i j k hij hjk := by
    unfold argRel at *
    rcases hij with h1 | ⟨h1, h1le⟩
    · rcases hjk with h2 | ⟨h2, _⟩
      · exact Or.inl (h1.trans h2)
      · exact Or.inl (h2 ▸ h1)
    · rcases hjk with h2 | ⟨h2, h2le⟩
      · exact Or.inl (h1 ▸ h2)
      · exact Or.inr ⟨h1.trans h2, h1le.trans h2le⟩

/-- `np.argsort(keys)`: the permutation of `range keys.length` sorted
stably by key. -/
def argsort {α : Type} [LinearOrder α] [Inhabited α] (keys : List α) : List Nat :=
  (List.range keys.length).insertionSort (argRel keys)

/-- `predict` of the exact session: score `words[searchtype][pruned]`
against `words[anstype][1]`, ascending argsort, report the first `K`
(word, score) pairs. -/
def exact_predict (K : Nat) (s : ExactState) (searchtype anstype : String)
    (pruned : Bool) : List (Word × Nat) :=
  let words := poolWords s searchtype pruned
  let scores := words.map fun w => get_score w (poolWords s anstype true)
  ((argsort scores).take K).map fun i => (words.getD i [], scores.getD i 0)

/-- `predict` of the heuristic session: score the chosen pool with
`get_word_info_approx`, then walk `argsort(scores)[::-1][:K]`. -/
noncomputable def heur_predict (K : Nat) (allowed answers : List Word)
    (can_ignore_hints : Bool) : List (Word × ℝ) :=
  let words := if can_ignore_hints then allowed else answers
  let scores := words.map fun w => get_word_info_approx answers w
  (((argsort scores).reverse).take K).map fun i => (words.getD i [], scores.getD i 0)

/-! ### Encoder lemmas -/

/-- Positions where the guess letter is `c` and the label marks `'1'`
(PRESENT) or `'2'` (CORRECT). -/
def marks (c : Char) (word lab : List Char) : Nat :=
  ((word.zip lab).filter fun p => p.1 = c ∧ (p.2 = '1' ∨ p.2 = '2')).length

/-- Exact positional matches of letter `c` between guess and target. -/
def matchCount (c : Char) (g t : List Char) : Nat :=
  ((g.zip t).filter fun p => p.2 = p.1 ∧ p.1 = c).length

theorem pass1_cons_of_eq (x b : Char) (gs ts : List Char) (cnt : Char → Int)
    (h : b = x) :
    pass1 (x :: gs) (b :: ts) cnt =
      ('2' :: (pass1 gs ts (decr cnt x)).1, (pass1 gs ts (decr cnt x)).2) := by
  rw [pass1, if_pos h]

theorem pass1_cons_of_ne (x b : Char) (gs ts : List Char) (cnt : Char → Int)
    (h : ¬b = x) :
    pass1 (x :: gs) (b :: ts) cnt =
      ('0' :: (pass1 gs ts cnt).1, (pass1 gs ts cnt).2) := by
  rw [pass1, if_neg h]

theorem pass2_cons_of_pos (x l : Char) (gs ls : List Char) (cnt : Char → Int)
    (h : l ≠ '2' ∧ 0 < cnt x) :
    pass2 (x :: gs) (l :: ls) cnt = '1' :: pass2 gs ls (decr cnt x) := by
  rw [pass2, if_pos h]

theorem pass2_cons_of_neg (x l : Char) (gs ls : List Char) (cnt : Char → Int)
    (h : ¬(l ≠ '2' ∧ 0 < cnt x)) :
    pass2 (x :: gs) (l :: ls) cnt = l :: pass2 gs ls cnt := by
  rw [pass2, if_neg h]

theorem decr_self (cnt : Char → Int) (c : Char) : decr cnt c c = cnt c - 1 := by
  simp [decr]

theorem decr_other (cnt : Char → Int) (c d : Char) (h : ¬d = c) :
    decr cnt c d = cnt d := by
  simp [decr, h]

theorem marks_cons (c g l : Char) (gs ls : List Char) :
    marks c (g :: gs) (l :: ls) =
      (if g = c ∧ (l = '1' ∨ l = '2') then 1 else 0) + marks c gs ls := by
  by_cases hp : g = c ∧ (l = '1' ∨ l = '2')
  · rw [if_pos hp]
    simp only [marks, List.zip_cons_cons, List.filter_cons]
    simp [hp]
    omega
  · rw [if_neg hp]
    simp only [marks, List.zip_cons_cons, List.filter_cons]
    simp [hp]

theorem matchCount_cons (c x b : Char) (gs ts : List Char) :
    matchCount c (x :: gs) (b :: ts) =
      (if b = x ∧ x = c then 1 else 0) + matchCount c gs ts := by
  by_cases hp : b = x ∧ x = c
  · simp only [matchCount, List.zip_cons_cons, List.filter_cons, if_pos hp]
    simp [hp]
    omega
  · simp only [matchCount, List.zip_cons_cons, List.filter_cons, if_neg hp]
    simp [hp]

theorem pass1_counts (c : Char) (g t : List Char) (cnt : Char → Int) :
    (pass1 g t cnt).2 c = cnt c - (matchCount c g t : Int) := by
  induction g generalizing t cnt with
  | nil => cases t <;> simp [pass1, matchCount]
  | cons x gs ih =>
    cases t with
    | nil => simp [pass1, matchCount]
    | cons b ts =>
      rw [matchCount_cons]
      by_cases h : b = x
      · rw [pass1_cons_of_eq x b gs ts cnt h]
        by_cases hc : x = c
        · have hif : (b = x ∧ x = c) := ⟨h, hc⟩
          rw [if_pos hif]
          have hd : decr cnt x c = cnt c - 1 := by
            have : c = x := hc.symm
            subst this
            exact decr_self cnt c
          rw [ih ts (decr cnt x), hd]
          push_cast
          omega
        · have hif : ¬(b = x ∧ x = c) := fun hh => hc hh.2
          rw [if_neg hif]
          have hd : decr cnt x c = cnt c := decr_other cnt x c fun hh => hc hh.symm
          rw [ih ts (decr cnt x), hd]
          push_cast
          omega
      · rw [pass1_cons_of_ne x b gs ts cnt h]
        have hif : ¬(b = x ∧ x = c) := fun hh => h hh.1
        rw [if_neg hif, ih ts cnt]
        push_cast
        omega

theorem pass1_marks (c : Char) (g t : List Char) (cnt : Char → Int) :
    marks c g (pass1 g t cnt).1 = matchCount c g t := by
  induction g generalizing t cnt with
  | nil => cases t <;> simp [pass1, marks, matchCount]
  | cons x gs ih =>
    cases t with
    | nil => simp [pass1, marks, matchCount]
    | cons b ts =>
      rw [matchCount_cons]
      by_cases h : b = x
      · rw [pass1_cons_of_eq x b gs ts cnt h, marks_cons, ih ts (decr cnt x)]
        by_cases hc : x = c
        · have h1 : (x = c ∧ (('2' : Char) = '1' ∨ ('2' : Char) = '2')) :=
            ⟨hc, Or.inr rfl⟩
          rw [if_pos h1, if_pos ⟨h, hc⟩]
        · rw [if_neg fun hh => hc hh.1, if_neg fun hh => hc hh.2]
      · rw [pass1_cons_of_ne x b gs ts cnt h, marks_cons, ih ts cnt]
        have h1 : ¬(x = c ∧ (('0' : Char) = '1' ∨ ('0' : Char) = '2')) := by
          rintro ⟨-, hh | hh⟩ <;> exact absurd hh (by decide)
        rw [if_neg h1, if_neg fun hh => h hh.1]

theorem matchCount_le_count (c : Char) (g t : List Char) :
    matchCount c g t ≤ t.count c := by
  induction g generalizing t with
  | nil => cases t <;> simp [matchCount]
  | cons x gs ih =>
    cases t with
    | nil => simp [matchCount]
    | cons b ts =>
      rw [matchCount_cons]
      have hc := ih ts
      by_cases hp : b = x ∧ x = c
      · have hbc : b = c := hp.1.trans hp.2
        rw [if_pos hp]
        simp [List.count_cons, hbc]
        omega
      · rw [if_neg hp, List.count_cons]
        split <;> omega

theorem pass2_marks_le (c : Char) (g a : List Char) (cnt : Char → Int) :
    (marks c g (pass2 g a cnt) : Int) ≤ max (cnt c) 0 + (marks c g a : Int) := by
  induction g generalizing a cnt with
  | nil => cases a <;> simp [pass2, marks]
  | cons x gs ih =>
    cases a with
    | nil => simp [pass2, marks]
    | cons l ls =>
      by_cases hbr : l ≠ '2' ∧ 0 < cnt x
      · rw [pass2_cons_of_pos x l gs ls cnt hbr, marks_cons, marks_cons]
        by_cases hc : x = c -- whether the decremented letter is the tracked one
        · have hcx : c = x := hc.symm
          subst hcx
          have ihh := ih ls (decr cnt c)
          rw [decr_self] at ihh
          have hone : (c = c ∧ (('1' : Char) = '1' ∨ ('1' : Char) = '2')) :=
            ⟨rfl, Or.inl rfl⟩
          rw [if_pos hone]
          have hcnt : 0 < cnt c := hbr.2
          push_cast
          split <;> omega
        · have ihh := ih ls (decr cnt x)
          rw [decr_other cnt x c fun hh => hc hh.symm] at ihh
          rw [if_neg fun hh => hc hh.1, if_neg fun hh => hc hh.1]
          push_cast
          omega
      · rw [pass2_cons_of_neg x l gs ls cnt hbr, marks_cons, marks_cons]
        have ihh := ih ls cnt
        push_cast
        push_cast at ihh
        split <;> omega

theorem pass2_get2 (g a : List Char) (cnt : Char → Int) (i : Nat) :
    (pass2 g a cnt)[i]? = some '2' ↔ (a[i]? = some '2' ∧ i < g.length) := by
  induction g generalizing a cnt i with
  | nil =>
    cases a <;> simp [pass2]
  | cons x gs ih =>
    cases a with
    | nil => simp [pass2]
    | cons l ls =>
      by_cases hbr : l ≠ '2' ∧ 0 < cnt x
      · rw [pass2, if_pos hbr]
        cases i with
        | zero => simp [hbr.1]
        | succ n => simpa using ih ls (decr cnt x) n
      · rw [pass2, if_neg hbr]
        cases i with
        | zero => simp
        | succ n => simpa using ih ls cnt n

theorem pass1_get2 (g t : List Char) (cnt : Char → Int) (i : Nat) :
    (pass1 g t cnt).1[i]? = some '2' ↔
      ∃ c, g[i]? = some c ∧ t[i]? = some c := by
  induction g generalizing t cnt i with
  | nil => cases t <;> simp [pass1]
  | cons x gs ih =>
    cases t with
    | nil => simp [pass1]
    | cons b ts =>
      by_cases h : b = x
      · rw [pass1, if_pos h]
        cases i with
        | zero => subst h; simp
        | succ n => simpa using ih ts (decr cnt x) n
      · rw [pass1, if_neg h]
        cases i with
        | zero =>
          simp only [List.getElem?_cons_zero]
          constructor
          · intro hh; exact absurd hh (by decide)
          · rintro ⟨c, hc1, hc2⟩
            exact absurd ((Option.some.inj hc2).trans (Option.some.inj hc1).symm) h
        | succ n => simpa using ih ts cnt n

theorem pass1_length (g t : List Char) (cnt : Char → Int) :
    (pass1 g t cnt).1.length = min g.length t.length := by
  induction g generalizing t cnt with
  | nil => cases t <;> simp [pass1]
  | cons x gs ih =>
    cases t with
    | nil => simp [pass1]
    | cons b ts =>
      by_cases h : b = x <;> simp [pass1, h, ih] <;> omega

/-- **C2.** For words of equal length, the encoder marks position `i`
CORRECT exactly when the guess and answer agree there, and for every
letter `c` the number of CORRECT-or-PRESENT marks at positions guessing
`c` is at most the number of occurrences of `c` in the answer. -/
theorem C2_encoder_correct_and_bounded (word target : List Char)
    (h : word.length = target.length) :
    (∀ i : Nat, (get_label word target)[i]? = some '2' ↔
        ∃ c, word[i]? = some c ∧ target[i]? = some c) ∧
    (∀ c : Char, marks c word (get_label word target) ≤ target.count c) := by
  constructor
  · intro i
    rw [get_label]
    rw [pass2_get2, pass1_get2]
    constructor
    · rintro ⟨⟨c, hc1, hc2⟩, _⟩
      exact ⟨c, hc1, hc2⟩
    · rintro ⟨c, hc1, hc2⟩
      refine ⟨⟨c, hc1, hc2⟩, ?_⟩
      exact (List.getElem?_eq_some.mp hc1).1
  · intro c
    rw [get_label]
    have h1 := pass2_marks_le c word
      (pass1 word target fun d => (target.count d : Int)).1
      (pass1 word target fun d => (target.count d : Int)).2
    rw [pass1_marks, pass1_counts] at h1
    have h2 := matchCount_le_count c word target
    have h3 : max ((target.count c : Int) - (matchCount c word target : Int)) 0 =
        (target.count c : Int) - (matchCount c word target : Int) := by
      omega
    rw [h3] at h1
    omega

/-- Witness for C2 at the fixture guess "aa", answer "ab". -/
theorem C2_witness :
    (∀ i : Nat, (get_label ['a', 'a'] ['a', 'b'])[i]? = some '2' ↔
        ∃ c, (['a', 'a'] : List Char)[i]? = some c ∧
          (['a', 'b'] : List Char)[i]? = some c) ∧
    (∀ c : Char, marks c ['a', 'a'] (get_label ['a', 'a'] ['a', 'b']) ≤
        (['a', 'b'] : List Char).count c) :=
  C2_encoder_correct_and_bounded ['a', 'a'] ['a', 'b'] (by decide)

theorem pass1_self (a : List Char) (cnt : Char → Int) :
    (pass1 a a cnt).1 = List.replicate a.length '2' := by
  induction a generalizing cnt with
  | nil => simp [pass1]
  | cons x xs ih => simp [pass1, ih, List.replicate_succ]

theorem pass2_all2 (g a : List Char) (cnt : Char → Int)
    (ha : ∀ x ∈ a, x = '2') (hl : g.length = a.length) :
    pass2 g a cnt = a := by
  induction g generalizing a cnt with
  | nil =>
    cases a with
    | nil => simp [pass2]
    | cons y ys => simp at hl
  | cons x gs ih =>
    cases a with
    | nil => simp at hl
    | cons y ys =>
      have hy : y = '2' := ha y (by simp)
      have hbr : ¬(y ≠ '2' ∧ 0 < cnt x) := fun hh => hh.1 hy
      rw [pass2, if_neg hbr]
      rw [ih ys cnt (fun x hx => ha x (by simp [hx])) (by simpa using hl)]

/-- **C3.** `encode(a, a)` is the all-CORRECT pattern. -/
theorem C3_encode_self_all_correct (a : List Char) :
    get_label a a = List.replicate a.length '2' := by
  rw [get_label, pass1_self]
  exact pass2_all2 a (List.replicate a.length '2') _
    (fun x hx => List.eq_of_mem_replicate hx) (by simp)

/-! ### Hint filter lemmas (exact session) -/

/-- A whole sequence of `add_word_hint` calls, oldest first. -/
def addHints (hs : List (Word × Word)) (s : ExactState) : ExactState :=
  hs.foldl (fun t h => exact_add_word_hint h.1 h.2 t) s

theorem satHints_append (hs1 hs2 : List (Word × Word)) (w : Word) :
    satHints (hs1 ++ hs2) w = (satHints hs1 w && satHints hs2 w) := by
  simp [satHints, List.all_append]

theorem mem_prune_words (hs : List (Word × Word)) (l : List Word) (w : Word) :
    w ∈ prune_words hs l ↔ w ∈ l ∧ ∀ h ∈ hs, get_label h.1 w = h.2 := by
  simp [prune_words, List.mem_filter, satHints, List.all_eq_true]

theorem prune_words_append (hs1 hs2 : List (Word × Word)) (l : List Word) :
    prune_words (hs1 ++ hs2) (prune_words hs1 l) = prune_words (hs1 ++ hs2) l := by
  rw [prune_words, prune_words, prune_words, List.filter_filter]
  apply List.filter_congr
  intro w _
  rw [satHints_append]
  cases satHints hs1 w <;> cases satHints hs2 w <;> rfl

theorem addHints_cons (h : Word × Word) (hs : List (Word × Word)) (s : ExactState) :
    addHints (h :: hs) s = addHints hs (exact_add_word_hint h.1 h.2 s) := rfl

theorem addHints_hints (hs : List (Word × Word)) (s : ExactState) :
    (addHints hs s).hints = s.hints ++ hs := by
  induction hs generalizing s with
  | nil => simp [addHints]
  | cons h hs ih =>
    rw [addHints_cons, ih]
    simp [exact_add_word_hint]

theorem addHints_words (pools : List (String × List Word))
    (hs : List (Word × Word)) (s : ExactState)
    (hw : s.words = pools.map fun p => (p.1, (p.2, prune_words s.hints p.2))) :
    (addHints hs s).words =
      pools.map fun p => (p.1, (p.2, prune_words (s.hints ++ hs) p.2)) := by
  induction hs generalizing s with
  | nil => simpa using hw
  | cons h hs ih =>
    rw [addHints_cons]
    have hstep : (exact_add_word_hint h.1 h.2 s).words =
        pools.map fun p =>
          (p.1, (p.2, prune_words (s.hints ++ [(h.1, h.2)]) p.2)) := by
      rw [exact_add_word_hint, hw, List.map_map]
      apply List.map_congr_left
      intro p _
      simp only [Function.comp]
      rw [prune_words_append]
    have := ih (exact_add_word_hint h.1 h.2 s) hstep
    rw [this]
    have hh : (exact_add_word_hint h.1 h.2 s).hints = s.hints ++ [(h.1, h.2)] := rfl
    rw [hh]
    simp

theorem addHints_init_words (pools : List (String × List Word))
    (hs : List (Word × Word)) :
    (addHints hs (initExactState pools)).words =
      pools.map fun p => (p.1, (p.2, prune_words hs p.2)) := by
  have := addHints_words pools hs (initExactState pools) ?_
  · simpa using this
  · show pools.map (fun p => (p.1, (p.2, p.2))) =
      pools.map fun p => (p.1, (p.2, prune_words [] p.2))
    apply List.map_congr_left
    intro p _
    have : prune_words [] p.2 = p.2 :=
      List.filter_eq_self.mpr fun w _ => rfl
    rw [this]

theorem poolWords_eq (s : ExactState) (name : String) (pr : Bool)
    (p : List Word × List Word) (h : s.words.lookup name = some p) :
    poolWords s name pr = if pr then p.2 else p.1 := by
  rw [poolWords, h]

/-- **C1 (amended, exact session).** After any sequence of `add_word_hint`
calls, the pruned answer pool is exactly the subset of the original answer
pool consistent, under the encoder, with every recorded hint. -/
theorem C1_exact_candidates_eq_encode_filter (A B : List Word)
    (hs : List (Word × Word)) (w : Word) :
    w ∈ poolWords (addHints hs (initExactState [("allowed", A), ("answers", B)]))
        "answers" true ↔
      w ∈ B ∧ ∀ h ∈ hs, get_label h.1 w = h.2 := by
  have hw := addHints_init_words [("allowed", A), ("answers", B)] hs
  have hl : (addHints hs (initExactState [("allowed", A), ("answers", B)])).words.lookup
      "answers" = some (B, prune_words hs B) := by
    rw [hw]; rfl
  rw [poolWords_eq _ _ _ _ hl]
  simpa using mem_prune_words hs B w

/-- **C1 (counterexample, heuristic session).** A hint whose guess repeats
a letter: the per-character filter empties the pool even though the only
word in it is consistent with the hint under the encoder. -/
theorem C1_heuristic_counterexample :
    heur_add_word_hint ['a', 'a'] ['2', '0'] [['a', 'b']] = Except.ok [] ∧
    prune_words [(['a', 'a'], ['2', '0'])] [['a', 'b']] = [['a', 'b']] ∧
    ([] : List Word) ≠ [['a', 'b']] := by
  refine ⟨rfl, rfl, ?_⟩
  simp

/-- **C10.** The exact session keeps each pool as (original, pruned):
after any hint sequence the original copies of both pools are untouched,
and the pruned allowed pool — the one `predict` reads with `pruned=True` —
holds exactly the allowed guesses consistent with every recorded hint. -/
theorem C10_originals_kept_every_pool_pruned (A B : List Word)
    (hs : List (Word × Word)) (g : Word) :
    poolWords (addHints hs (initExactState [("allowed", A), ("answers", B)]))
        "allowed" false = A ∧
    poolWords (addHints hs (initExactState [("allowed", A), ("answers", B)]))
        "answers" false = B ∧
    (g ∈ poolWords (addHints hs (initExactState [("allowed", A), ("answers", B)]))
        "allowed" true ↔ g ∈ A ∧ ∀ h ∈ hs, get_label h.1 g = h.2) := by
  have hw := addHints_init_words [("allowed", A), ("answers", B)] hs
  have hla : (addHints hs (initExactState [("allowed", A), ("answers", B)])).words.lookup
      "allowed" = some (A, prune_words hs A) := by
    rw [hw]; rfl
  have hlb : (addHints hs (initExactState [("allowed", A), ("answers", B)])).words.lookup
      "answers" = some (B, prune_words hs B) := by
    rw [hw]; rfl
  refine ⟨?_, ?_, ?_⟩
  · rw [poolWords_eq _ _ _ _ hla]; rfl
  · rw [poolWords_eq _ _ _ _ hlb]; rfl
  · rw [poolWords_eq _ _ _ _ hla]
    simpa using mem_prune_words hs A g


/-- Everything surviving a run of the per-character filters was in the
starting set. -/
theorem charHintsFold_subset (ps : List (Nat × Char × Char)) (start : List Word) :
    (ps.foldl (fun ws p => add_char_hint p.2.1 p.2.2 p.1 ws) start) ⊆ start := by
  induction ps generalizing start with
  | nil => exact fun x hx => hx
  | cons p ps ih =>
    intro x hx
    have := ih (add_char_hint p.2.1 p.2.2 p.1 start) hx
    exact List.filter_subset' start this

/-- **C6.** Adding a hint only shrinks candidate sets: in the exact session
every pool's pruned copy becomes a subset of what it was, and in the
heuristic session both a single character hint and a whole word hint
filter the candidate set down. -/
theorem C6_candidate_sets_shrink (word label : Word) (s : ExactState)
    (char lab : Char) (pos : Nat) (answers : List Word) :
    List.Forall₂ (fun p q => q.2.2 ⊆ p.2.2) s.words
      (exact_add_word_hint word label s).words ∧
    add_char_hint char lab pos answers ⊆ answers ∧
    apply_char_hints word label answers ⊆ answers := by
  refine ⟨?_, List.filter_subset' answers, charHintsFold_subset _ answers⟩
  rw [exact_add_word_hint]
  rw [List.forall₂_map_right_iff]
  rw [List.forall₂_same]
  intro p _
  exact List.filter_subset' p.2.2

theorem charHintsFold_mem_sat (ps : List (Nat × Char × Char)) (start : List Word)
    (w : Word) (hw : w ∈ ps.foldl (fun ws p => add_char_hint p.2.1 p.2.2 p.1 ws) start) :
    ∀ p ∈ ps, keepChar p.2.1 p.2.2 p.1 w = true := by
  induction ps generalizing start with
  | nil => simp
  | cons p ps ih =>
    intro q hq
    rcases List.mem_cons.mp hq with hq | hq
    · subst hq
      have h1 : w ∈ add_char_hint q.2.1 q.2.2 q.1 start :=
        charHintsFold_subset ps _ hw
      simp only [add_char_hint] at h1
      exact (List.mem_filter.mp h1).2
    · exact ih (add_char_hint p.2.1 p.2.2 p.1 start) hw q hq

theorem charHintsFold_idem (ps : List (Nat × Char × Char)) (start : List Word) :
    (ps.foldl (fun ws p => add_char_hint p.2.1 p.2.2 p.1 ws)
      (ps.foldl (fun ws p => add_char_hint p.2.1 p.2.2 p.1 ws) start)) =
      ps.foldl (fun ws p => add_char_hint p.2.1 p.2.2 p.1 ws) start := by
  induction ps generalizing start with
  | nil => rfl
  | cons p ps ih =>
    simp only [List.foldl_cons]
    have hfix : add_char_hint p.2.1 p.2.2 p.1
        (ps.foldl (fun ws q => add_char_hint q.2.1 q.2.2 q.1 ws)
          (add_char_hint p.2.1 p.2.2 p.1 start)) =
        ps.foldl (fun ws q => add_char_hint q.2.1 q.2.2 q.1 ws)
          (add_char_hint p.2.1 p.2.2 p.1 start) := by
      rw [add_char_hint, List.filter_eq_self]
      intro w hw
      have h1 : w ∈ add_char_hint p.2.1 p.2.2 p.1 start :=
        charHintsFold_subset ps _ hw
      simp only [add_char_hint] at h1
      exact (List.mem_filter.mp h1).2
    rw [hfix, ih]

theorem apply_char_hints_idem (word label : Word) (answers : List Word) :
    apply_char_hints word label (apply_char_hints word label answers) =
      apply_char_hints word label answers := by
  simp only [apply_char_hints]
  exact charHintsFold_idem ((word.zip label).enum) answers

theorem checkLabelChars_eq (l : List Char) :
    checkLabelChars l =
      if ∀ c ∈ l, c = '0' ∨ c = '1' ∨ c = '2' then Except.ok ()
      else Except.error WordleError.invalidInput := by
  induction l with
  | nil => simp [checkLabelChars]
  | cons c cs ih =>
    by_cases hc : c = '0' ∨ c = '1' ∨ c = '2'
    · rw [checkLabelChars, if_pos hc, ih]
      by_cases hcs : ∀ d ∈ cs, d = '0' ∨ d = '1' ∨ d = '2'
      · rw [if_pos hcs, if_pos]
        intro d hd
        rcases List.mem_cons.mp hd with hd | hd
        · exact hd ▸ hc
        · exact hcs d hd
      · rw [if_neg hcs, if_neg]
        intro hall
        exact hcs fun d hd => hall d (List.mem_cons_of_mem c hd)
    · rw [checkLabelChars, if_neg hc, if_neg]
      intro hall
      exact hc (hall c (List.mem_cons_self c cs))

/-- The spec-shaped atomic validate-then-apply form of the heuristic
session's `add_word_hint`. -/
theorem heur_add_word_hint_eq (word label : Word) (answers : List Word) :
    heur_add_word_hint word label answers =
      if (∀ c ∈ label, c = '0' ∨ c = '1' ∨ c = '2') ∧ word.length = label.length
      then Except.ok (apply_char_hints word label answers)
      else Except.error WordleError.invalidInput := by
  rw [heur_add_word_hint, checkLabelChars_eq]
  by_cases hP : ∀ c ∈ label, c = '0' ∨ c = '1' ∨ c = '2'
  · rw [if_pos hP]
    by_cases hL : word.length = label.length
    · rw [if_pos hL, if_pos ⟨hP, hL⟩]
    · have hc : ¬((∀ c ∈ label, c = '0' ∨ c = '1' ∨ c = '2') ∧
          word.length = label.length) := fun hh => hL hh.2
      rw [if_neg hL, if_neg hc]
  · have hc : ¬((∀ c ∈ label, c = '0' ∨ c = '1' ∨ c = '2') ∧
        word.length = label.length) := fun hh => hP hh.1
    rw [if_neg hP, if_neg hc]

/-- **C7 (amended).** The heuristic session validates atomically (label
symbols, then lengths) and only applies the hint when both checks pass;
the exact session performs no validation at all and always appends the
hint, mutating its state even for malformed input. -/
theorem C7_validation_heuristic_only (word label : Word) (answers : List Word)
    (s : ExactState) :
    (heur_add_word_hint word label answers =
      if (∀ c ∈ label, c = '0' ∨ c = '1' ∨ c = '2') ∧ word.length = label.length
      then Except.ok (apply_char_hints word label answers)
      else Except.error WordleError.invalidInput) ∧
    (exact_add_word_hint word label s).hints = s.hints ++ [(word, label)] :=
  ⟨heur_add_word_hint_eq word label answers, rfl⟩

/-- A one-pool exact session used as a concrete counterexample state. -/
def cexState : ExactState :=
  { hints := [], words := [("answers", ([['a', 'b']], [['a', 'b']]))] }

/-- **C7 (counterexample).** The exact session's `add_word_hint` accepts a
hint whose word and label lengths differ, raising nothing and mutating
both the hint sequence and the candidate set. -/
theorem C7_exact_mutates_on_invalid_input :
    (['a'] : List Char).length ≠ (['0', '1'] : List Char).length ∧
    (exact_add_word_hint ['a'] ['0', '1'] cexState).hints ≠ cexState.hints ∧
    (exact_add_word_hint ['a'] ['0', '1'] cexState).words ≠ cexState.words := by
  refine ⟨by simp, ?_, ?_⟩
  · show [(['a'], ['0', '1'])] ≠ ([] : List (Word × Word))
    simp
  · show (cexState.words.map fun p =>
      (p.1, (p.2.1, prune_words [(['a'], ['0', '1'])] p.2.2))) ≠ cexState.words
    have : prune_words [(['a'], ['0', '1'])] [['a', 'b']] = [] := rfl
    simp [cexState, this]

/-- **C9.** Adding the same hint twice in a row leaves the candidate sets
where one addition put them: the heuristic session returns the same pruned
set, and in the exact session every pool's pruned copy is unchanged by the
repeat. -/
theorem C9_addHint_idempotent (word label : Word) (answers answers1 : List Word)
    (s : ExactState)
    (h : heur_add_word_hint word label answers = Except.ok answers1) :
    heur_add_word_hint word label answers1 = Except.ok answers1 ∧
    (exact_add_word_hint word label (exact_add_word_hint word label s)).words.map
        (fun p => p.2.2) =
      (exact_add_word_hint word label s).words.map (fun p => p.2.2) := by
  constructor
  · rw [heur_add_word_hint_eq] at h ⊢
    by_cases hv : (∀ c ∈ label, c = '0' ∨ c = '1' ∨ c = '2') ∧
        word.length = label.length
    · rw [if_pos hv] at h ⊢
      have h1 : answers1 = apply_char_hints word label answers :=
        (Except.ok.inj h).symm
      rw [h1, apply_char_hints_idem]
    · rw [if_neg hv] at h
      exact absurd h (by simp)
  · rw [exact_add_word_hint, exact_add_word_hint]
    simp only [List.map_map]
    apply List.map_congr_left
    intro p _
    simp only [Function.comp]
    have hdup : ∀ l : List Word,
        prune_words ((s.hints ++ [(word, label)]) ++ [(word, label)])
          (prune_words (s.hints ++ [(word, label)]) l) =
        prune_words (s.hints ++ [(word, label)]) l := by
      intro l
      rw [prune_words_append]
      rw [prune_words, prune_words]
      apply List.filter_congr
      intro w _
      rw [satHints_append, satHints_append]
      cases satHints s.hints w <;> cases satHints [(word, label)] w <;> rfl
    exact hdup p.2.2

/-- Witness for C9 at a concrete valid hint. -/
theorem C9_witness :
    heur_add_word_hint ['a'] ['2'] [['a']] = Except.ok [['a']] ∧
    (exact_add_word_hint ['a'] ['2']
        (exact_add_word_hint ['a'] ['2'] (initExactState []))).words.map
        (fun p => p.2.2) =
      (exact_add_word_hint ['a'] ['2'] (initExactState [])).words.map
        (fun p => p.2.2) :=
  C9_addHint_idempotent ['a'] ['2'] [['a'], ['b']] [['a']] (initExactState []) rfl

/-! ### Exact scorer lemmas (C5) -/

theorem countOcc_cons {α : Type} [DecidableEq α] (a x : α) (l : List α) :
    countOcc (a :: l) x = countOcc l x + if a = x then 1 else 0 := by
  by_cases h : a = x
  · subst h
    simp [countOcc, List.filter_cons]
  · simp [countOcc, List.filter_cons, h]

theorem countOcc_eq_zero {α : Type} [DecidableEq α] (a : α) (l : List α)
    (h : a ∉ l) : countOcc l a = 0 := by
  rw [countOcc, List.length_eq_zero]
  rw [List.filter_eq_nil]
  intro q hq
  simp only [decide_eq_true_eq]
  intro hqa
  exact h (hqa ▸ hq)

theorem countOcc_pos {α : Type} [DecidableEq α] (a : α) (l : List α)
    (h : a ∈ l) : 1 ≤ countOcc l a := by
  have : a ∈ l.filter fun q => q = a :=
    List.mem_filter.mpr ⟨h, by simp⟩
  have := List.length_pos.mpr (List.ne_nil_of_mem this)
  simpa [countOcc] using this

theorem sum_indicator_of_not_mem {α : Type} [DecidableEq α] (a : α) (m : List α)
    (h : a ∉ m) : (m.map fun x => if a = x then 1 else 0).sum = 0 := by
  induction m with
  | nil => simp
  | cons b bs ih =>
    have hab : ¬a = b := fun hh => h (hh ▸ List.mem_cons_self b bs)
    have hbs : a ∉ bs := fun hh => h (List.mem_cons_of_mem b hh)
    simp [hab, ih hbs]

theorem sum_indicator_of_nodup_mem {α : Type} [DecidableEq α] (a : α) (m : List α)
    (hd : m.Nodup) (h : a ∈ m) : (m.map fun x => if a = x then 1 else 0).sum = 1 := by
  induction m with
  | nil => simp at h
  | cons b bs ih =>
    rcases List.mem_cons.mp h with hh | hh
    · subst hh
      simp only [List.map_cons, List.sum_cons, if_pos rfl]
      rw [sum_indicator_of_not_mem a bs (List.nodup_cons.mp hd).1]
      simp
    · have hab : ¬a = b := by
        intro he
        exact (List.nodup_cons.mp hd).1 (he ▸ hh)
      simp only [List.map_cons, List.sum_cons, if_neg hab]
      rw [ih (List.nodup_cons.mp hd).2 hh]

theorem sum_countOcc_dedup {α : Type} [DecidableEq α] (L : List α) :
    (L.dedup.map fun p => countOcc L p).sum = L.length := by
  induction L with
  | nil => simp
  | cons a l ih =>
    have hsplit : ∀ m : List α,
        (m.map fun p => countOcc (a :: l) p).sum =
          (m.map fun p => countOcc l p).sum +
          (m.map fun p => if a = p then 1 else 0).sum := by
      intro m
      induction m with
      | nil => simp
      | cons q qs ihq =>
        simp only [List.map_cons, List.sum_cons]
        rw [countOcc_cons, ihq]
        by_cases haq : a = q
        · rw [if_pos haq]
          omega
        · rw [if_neg haq]
          omega
    by_cases ha : a ∈ l
    · rw [List.dedup_cons_of_mem ha, hsplit, ih,
        sum_indicator_of_nodup_mem a l.dedup (List.nodup_dedup l)
          (List.mem_dedup.mpr ha)]
      simp
    · rw [List.dedup_cons_of_not_mem ha, List.map_cons, List.sum_cons, hsplit, ih,
        sum_indicator_of_not_mem a l.dedup fun hh => ha (List.mem_dedup.mp hh),
        countOcc_cons, countOcc_eq_zero a l ha]
      simp [Nat.add_comm]

theorem sq_sum_ge (ns : List Nat) (h : ∀ n ∈ ns, 1 ≤ n) :
    ns.sum ≤ (ns.map fun n => n ^ 2).sum ∧
    ((ns.map fun n => n ^ 2).sum = ns.sum ↔ ∀ n ∈ ns, n = 1) := by
  induction ns with
  | nil => simp
  | cons n ns ih =>
    have hn := h n (List.mem_cons_self n ns)
    have iht := ih fun m hm => h m (List.mem_cons_of_mem n hm)
    simp only [List.map_cons, List.sum_cons]
    obtain ⟨m, hm⟩ : ∃ m, n ^ 2 = m := ⟨n ^ 2, rfl⟩
    have hnm : n ≤ m := by
      rw [← hm]
      calc n = n ^ 1 := (pow_one n).symm
        _ ≤ n ^ 2 := Nat.pow_le_pow_right hn (by omega)
    have hiff : m = n ↔ n = 1 := by
      constructor
      · intro hh
        rw [← hm] at hh
        nlinarith
      · intro hh
        rw [← hm, hh, one_pow]
    rw [hm]
    constructor
    · omega
    · rw [List.forall_mem_cons]
      constructor
      · intro he
        have h1 : m = n ∧ (ns.map fun n => n ^ 2).sum = ns.sum := by
          have := iht.1
          omega
        exact ⟨hiff.mp h1.1, iht.2.mp h1.2⟩
      · rintro ⟨h1, h2⟩
        rw [hiff.mpr h1, iht.2.mpr h2]

theorem get_score_eq_sq_sum (word : Word) (answers : List Word) :
    get_score word answers = ((partitionSizes word answers).map fun n => n ^ 2).sum := by
  rw [get_score, partitionSizes, List.map_map]
  rfl

/-- **C5.** The partition sizes of a guess over a non-empty candidate set
sum to the candidate set size, and the exact score (sum of squared sizes)
is at least the candidate set size, with equality exactly when every
partition is a singleton. -/
theorem C5_partition_sum_and_score_bound (word : Word) (answers : List Word)
    (h : answers ≠ []) :
    (partitionSizes word answers).sum = answers.length ∧
    answers.length ≤ get_score word answers ∧
    (get_score word answers = answers.length ↔
      ∀ n ∈ partitionSizes word answers, n = 1) := by
  have hsum : (partitionSizes word answers).sum = answers.length := by
    simp only [partitionSizes]
    rw [sum_countOcc_dedup, List.length_map]
  have hone : ∀ n ∈ partitionSizes word answers, 1 ≤ n := by
    intro n hn
    rw [partitionSizes] at hn
    simp only [List.mem_map] at hn
    obtain ⟨p, hp, hpn⟩ := hn
    rw [← hpn]
    exact countOcc_pos p _ (List.mem_dedup.mp hp)
  have hsq := sq_sum_ge (partitionSizes word answers) hone
  rw [get_score_eq_sq_sum]
  exact ⟨hsum, hsum ▸ hsq.1, by rw [hsum] at hsq; exact hsq.2⟩

/-! ### Entropy lemmas (C4) -/

/-- The real-valued total of a count list. -/
noncomputable def sumR (l : List Nat) : ℝ := (l.map fun n : Nat => (n : ℝ)).sum

theorem list_sum_nonpos (l : List ℝ) (h : ∀ x ∈ l, x ≤ 0) : l.sum ≤ 0 := by
  induction l with
  | nil => simp
  | cons x xs ih =>
    rw [List.sum_cons]
    have hx := h x (List.mem_cons_self x xs)
    have hxs := ih fun y hy => h y (List.mem_cons_of_mem x hy)
    linarith

theorem sum_map_filter_pos (f : Nat → ℝ) (hf : f 0 = 0) (l : List Nat) :
    (((l.filter fun n => 0 < n).map f).sum) = (l.map f).sum := by
  induction l with
  | nil => simp
  | cons n ns ih =>
    by_cases hn : 0 < n
    · simp [List.filter_cons, hn, ih]
    · have hn0 : n = 0 := by omega
      simp [List.filter_cons, hn, hn0, hf, ih]

theorem sumR_filter_pos (l : List Nat) :
    sumR (l.filter fun n => 0 < n) = sumR l :=
  sum_map_filter_pos (fun n => (n : ℝ)) (by simp) l

/-- `get_information` without the zero-count filtering: with the
conventions `x / 0 = 0` and `log 0 = 0`, dropped zero counts contribute
nothing to either the normaliser or the entropy sum. -/
theorem get_information_eq (l : List Nat) :
    get_information l =
      -((l.map fun n : Nat =>
          ((n : ℝ) / sumR l) * Real.log ((n : ℝ) / sumR l)).sum) := by
  simp only [get_information]
  by_cases hp : (l.filter fun n => 0 < n) = []
  · rw [if_pos hp]
    have hz : ∀ n ∈ l, n = 0 := by
      intro n hn
      have := List.filter_eq_nil_iff.mp hp n hn
      simpa using this
    have hterm : ∀ x ∈ l.map fun n : Nat =>
        ((n : ℝ) / sumR l) * Real.log ((n : ℝ) / sumR l), x = 0 := by
      intro x hx
      obtain ⟨n, hn, rfl⟩ := List.mem_map.mp hx
      rw [hz n hn]
      simp
    rw [List.sum_eq_zero hterm, neg_zero]
  · rw [if_neg hp]
    have hS : ((l.filter fun n => 0 < n).map fun n : Nat => (n : ℝ)).sum = sumR l :=
      sumR_filter_pos l
    rw [hS]
    rw [sum_map_filter_pos
      (fun n : Nat => ((n : ℝ) / sumR l) * Real.log ((n : ℝ) / sumR l)) (by simp) l]

theorem get_information_nonneg (l : List Nat) : 0 ≤ get_information l := by
  rw [get_information_eq, neg_nonneg]
  apply list_sum_nonpos
  intro x hx
  obtain ⟨n, hn, rfl⟩ := List.mem_map.mp hx
  have hS0 : 0 ≤ sumR l := by
    rw [sumR]
    apply List.sum_nonneg
    intro y hy
    obtain ⟨m, _, rfl⟩ := List.mem_map.mp hy
    positivity
  by_cases hSz : sumR l = 0
  · rw [hSz, div_zero]
    simp
  · have hSpos : 0 < sumR l := lt_of_le_of_ne hS0 (Ne.symm hSz)
    have hq0 : 0 ≤ (n : ℝ) / sumR l := div_nonneg (Nat.cast_nonneg n) hS0
    have hn_le : (n : ℝ) ≤ sumR l := by
      rw [sumR]
      apply List.single_le_sum
      · intro y hy
        obtain ⟨m, _, rfl⟩ := List.mem_map.mp hy
        positivity
      · exact List.mem_map.mpr ⟨n, hn, rfl⟩
    have hq1 : (n : ℝ) / sumR l ≤ 1 := (div_le_one hSpos).mpr hn_le
    have hlog := Real.log_nonpos hq0 hq1
    exact mul_nonpos_iff.mpr (Or.inl ⟨hq0, hlog⟩)

/-- Subadditivity of `x ↦ x log x` over a common normaliser: merging two
event counts cannot increase the entropy contribution. -/
theorem xlogx_subadd (x y s : ℝ) (hx : 0 ≤ x) (hy : 0 ≤ y) (hs : 0 ≤ s) :
    x / s * Real.log (x / s) + y / s * Real.log (y / s) ≤
      (x + y) / s * Real.log ((x + y) / s) := by
  by_cases hs0 : s = 0
  · simp [hs0]
  by_cases hx0 : x = 0
  · simp [hx0]
  by_cases hy0 : y = 0
  · simp [hy0]
  have hspos : 0 < s := lt_of_le_of_ne hs (Ne.symm hs0)
  have hxpos : 0 < x := lt_of_le_of_ne hx (Ne.symm hx0)
  have hypos : 0 < y := lt_of_le_of_ne hy (Ne.symm hy0)
  have h1 : x / s * Real.log (x / s) ≤ x / s * Real.log ((x + y) / s) := by
    apply mul_le_mul_of_nonneg_left _ (div_nonneg hx hs)
    apply Real.log_le_log (by positivity)
    exact (div_le_div_right hspos).mpr (by linarith)
  have h2 : y / s * Real.log (y / s) ≤ y / s * Real.log ((x + y) / s) := by
    apply mul_le_mul_of_nonneg_left _ (div_nonneg hy hs)
    apply Real.log_le_log (by positivity)
    exact (div_le_div_right hspos).mpr (by linarith)
  have h3 : x / s * Real.log ((x + y) / s) + y / s * Real.log ((x + y) / s) =
      (x + y) / s * Real.log ((x + y) / s) := by ring
  linarith

theorem info_merge_le (a b n : Nat) :
    get_information [a + b, n] ≤ get_information [a, b, n] := by
  rw [get_information_eq, get_information_eq]
  have hS : sumR [a + b, n] = sumR [a, b, n] := by
    simp [sumR]
    push_cast
    ring
  rw [hS]
  simp only [List.map_cons, List.map_nil, List.sum_cons, List.sum_nil]
  have hS0 : 0 ≤ sumR [a, b, n] := by
    simp [sumR]
    positivity
  have key := xlogx_subadd (a : ℝ) (b : ℝ) (sumR [a, b, n])
    (Nat.cast_nonneg a) (Nat.cast_nonneg b) hS0
  push_cast
  linarith

theorem char_pos_le_in (answers : List Word) (c : Char) (pos : Nat) :
    char_pos_count answers c pos ≤ char_in_count answers c := by
  rw [char_pos_count, char_in_count,
    ← List.countP_eq_length_filter, ← List.countP_eq_length_filter]
  apply List.countP_mono_left
  intro w _ hwp
  simp only [decide_eq_true_eq] at hwp
  have : c ∈ w := List.getElem?_mem hwp
  simpa [List.contains] using this

theorem char_info_le_pos_info (answers : List Word) (c : Char) (pos : Nat) :
    get_char_info answers c ≤ get_char_pos_info_approx answers c pos := by
  rw [get_char_info, get_char_pos_info_approx]
  by_cases hin : inChars answers c
  · rw [if_pos hin, if_pos hin]
    have hle := char_pos_le_in answers c pos
    have hdecomp : char_in_count answers c =
        char_pos_count answers c pos +
          (char_in_count answers c - char_pos_count answers c pos) := by omega
    calc get_information [char_in_count answers c, char_notin_count answers c]
        = get_information [char_pos_count answers c pos +
            (char_in_count answers c - char_pos_count answers c pos),
            char_notin_count answers c] := by rw [← hdecomp]
      _ ≤ get_information [char_pos_count answers c pos,
            char_in_count answers c - char_pos_count answers c pos,
            char_notin_count answers c] := info_merge_le _ _ _
  · rw [if_neg hin, if_neg hin]

theorem char_pos_info_nonneg (answers : List Word) (c : Char) (pos : Nat) :
    0 ≤ get_char_pos_info_approx answers c pos := by
  rw [get_char_pos_info_approx]
  by_cases hin : inChars answers c
  · rw [if_pos hin]
    exact get_information_nonneg _
  · rw [if_neg hin]

theorem wordInfoStep_ge (answers : List Word) (st : ℝ × List Char)
    (pc : Nat × Char) : st.1 ≤ (wordInfoStep answers st pc).1 := by
  simp only [wordInfoStep]
  by_cases hmem : pc.2 ∈ st.2
  · rw [if_pos hmem]
    have := char_info_le_pos_info answers pc.2 pc.1
    simp only
    linarith
  · rw [if_neg hmem]
    have := char_pos_info_nonneg answers pc.2 pc.1
    simp only
    linarith

theorem wordInfoFold_ge (answers : List Word) (ps : List (Nat × Char))
    (st : ℝ × List Char) : st.1 ≤ (ps.foldl (wordInfoStep answers) st).1 := by
  induction ps generalizing st with
  | nil => simp
  | cons p ps ih =>
    rw [List.foldl_cons]
    exact le_trans (wordInfoStep_ge answers st p) (ih _)

theorem wordInfoStep_frozen (answers : List Word) (st : ℝ × List Char)
    (pc : Nat × Char) (h : inChars answers pc.2 = false) :
    (wordInfoStep answers st pc).1 = st.1 := by
  have h1 : get_char_pos_info_approx answers pc.2 pc.1 = 0 := by
    rw [get_char_pos_info_approx, if_neg (by simp [h])]
  have h2 : get_char_info answers pc.2 = 0 := by
    rw [get_char_info, if_neg (by simp [h])]
  simp only [wordInfoStep]
  by_cases hmem : pc.2 ∈ st.2
  · rw [if_pos hmem]
    simp [h1, h2]
  · rw [if_neg hmem]
    simp [h1]

theorem wordInfoFold_frozen (answers : List Word) (ps : List (Nat × Char))
    (st : ℝ × List Char) (h : ∀ p ∈ ps, inChars answers p.2 = false) :
    (ps.foldl (wordInfoStep answers) st).1 = st.1 := by
  induction ps generalizing st with
  | nil => rfl
  | cons p ps ih =>
    rw [List.foldl_cons, ih _ fun q hq => h q (List.mem_cons_of_mem p hq)]
    exact wordInfoStep_frozen answers st p (h p (List.mem_cons_self p ps))

/-- **C4.** The heuristic information score is non-negative for every
guess (repeated letters included, where the whole-word presence
information is subtracted per repeat), and a guess none of whose letters
occurs in any candidate word scores exactly 0. -/
theorem C4_heuristic_info_nonneg_and_zero (answers : List Word) (word : Word) :
    0 ≤ get_word_info_approx answers word ∧
    ((∀ c ∈ word, inChars answers c = false) →
      get_word_info_approx answers word = 0) := by
  constructor
  · rw [get_word_info_approx]
    exact wordInfoFold_ge answers word.enum (0, [])
  · intro h
    rw [get_word_info_approx]
    apply wordInfoFold_frozen
    intro p hp
    obtain ⟨i, c⟩ := p
    exact h c (List.getElem?_mem (List.mk_mem_enum_iff_getElem?.mp hp))

/-! ### Ranker lemmas (C8) -/

theorem argsort_length {α : Type} [LinearOrder α] [Inhabited α] (keys : List α) :
    (argsort keys).length = keys.length := by
  rw [argsort, List.length_insertionSort, List.length_range]

theorem argsort_perm {α : Type} [LinearOrder α] [Inhabited α] (keys : List α) :
    (argsort keys).Perm (List.range keys.length) :=
  List.perm_insertionSort (argRel keys) (List.range keys.length)

theorem argsort_sorted {α : Type} [LinearOrder α] [Inhabited α] (keys : List α) :
    List.Sorted (argRel keys) (argsort keys) :=
  List.sorted_insertionSort (argRel keys) (List.range keys.length)

theorem argsort_reverse_sorted {α : Type} [LinearOrder α] [Inhabited α]
    (keys : List α) :
    List.Sorted (fun i j => argRel keys j i) ((argsort keys).reverse) := by
  rw [List.Sorted, List.pairwise_reverse]
  exact argsort_sorted keys

theorem exact_predict_length (K : Nat) (s : ExactState)
    (searchtype anstype : String) (pruned : Bool) :
    (exact_predict K s searchtype anstype pruned).length =
      min K (poolWords s searchtype pruned).length := by
  simp only [exact_predict]
  rw [List.length_map, List.length_take, argsort_length, List.length_map]

theorem heur_predict_length (K : Nat) (allowed answers : List Word)
    (cih : Bool) :
    (heur_predict K allowed answers cih).length =
      min K (if cih then allowed else answers).length := by
  simp only [heur_predict]
  rw [List.length_map, List.length_take, List.length_reverse, argsort_length,
    List.length_map]

/-- **C8 (amended).** Both rankers walk a stable argsort of the scores:
the exact ranker ascends (ties broken by earlier pool position), the
heuristic ranker walks the argsort reversed, so it descends with ties
broken by *later* pool position; in both, asking for more than the pool
holds just returns the whole pool (`min K n` results). -/
theorem C8_ranker_order_and_clamp (s : ExactState) (searchtype anstype : String)
    (pruned : Bool) (K : Nat) (allowed answers : List Word) (cih : Bool) :
    List.Sorted (argRel ((poolWords s searchtype pruned).map fun w =>
        get_score w (poolWords s anstype true)))
      (argsort ((poolWords s searchtype pruned).map fun w =>
        get_score w (poolWords s anstype true))) ∧
    (argsort ((poolWords s searchtype pruned).map fun w =>
        get_score w (poolWords s anstype true))).Perm
      (List.range (poolWords s searchtype pruned).length) ∧
    (exact_predict K s searchtype anstype pruned).length =
      min K (poolWords s searchtype pruned).length ∧
    List.Sorted (fun i j => argRel ((if cih then allowed else answers).map fun w =>
        get_word_info_approx answers w) j i)
      ((argsort ((if cih then allowed else answers).map fun w =>
        get_word_info_approx answers w)).reverse) ∧
    (heur_predict K allowed answers cih).length =
      min K (if cih then allowed else answers).length := by
  refine ⟨argsort_sorted _, ?_, exact_predict_length K s searchtype anstype pruned,
    argsort_reverse_sorted _, heur_predict_length K allowed answers cih⟩
  have := argsort_perm ((poolWords s searchtype pruned).map fun w =>
    get_score w (poolWords s anstype true))
  rwa [List.length_map] at this

/-- A guess whose letters all miss the candidate pool scores 0 (shared by
the C4 development and the C8 counterexample). -/
theorem word_info_zero_of_no_chars (answers : List Word) (word : Word)
    (h : ∀ c ∈ word, inChars answers c = false) :
    get_word_info_approx answers word = 0 := by
  rw [get_word_info_approx]
  apply wordInfoFold_frozen
  intro p hp
  obtain ⟨i, c⟩ := p
  exact h c (List.getElem?_mem (List.mk_mem_enum_iff_getElem?.mp hp))

/-- **C8 (counterexample).** Two allowed guesses tie at score 0 against
the candidate pool `["zz"]`, yet the heuristic ranker reports them in
*reverse* pool order, contradicting the claimed stable tie-breaking. -/
theorem C8_heur_ties_reversed :
    get_word_info_approx [['z', 'z']] ['a', 'b'] =
      get_word_info_approx [['z', 'z']] ['c', 'd'] ∧
    heur_predict 2 [['a', 'b'], ['c', 'd']] [['z', 'z']] true =
      [(['c', 'd'], 0), (['a', 'b'], 0)] := by
  have hab : get_word_info_approx [['z', 'z']] ['a', 'b'] = 0 := by
    apply word_info_zero_of_no_chars
    intro c hc
    rcases List.mem_cons.mp hc with hh | hh
    · subst hh; decide
    · rcases List.mem_cons.mp hh with hh | hh
      · subst hh; decide
      · simp at hh
  have hcd : get_word_info_approx [['z', 'z']] ['c', 'd'] = 0 := by
    apply word_info_zero_of_no_chars
    intro c hc
    rcases List.mem_cons.mp hc with hh | hh
    · subst hh; decide
    · rcases List.mem_cons.mp hh with hh | hh
      · subst hh; decide
      · simp at hh
  refine ⟨hab.trans hcd.symm, ?_⟩
  simp only [heur_predict, if_pos, List.map_cons, List.map_nil]
  rw [hab, hcd]
  have hrel : argRel [(0 : ℝ), 0] 0 1 := Or.inr ⟨rfl, by omega⟩
  have hsort : argsort [(0 : ℝ), 0] = [0, 1] := by
    rw [argsort]
    show List.insertionSort (argRel [(0 : ℝ), 0]) [0, 1] = [0, 1]
    simp only [List.insertionSort, List.orderedInsert]
    rw [if_pos hrel]
  rw [hsort]
  rfl

/-- Witness for C5 on a one-word pool. -/
theorem C5_witness :
    (partitionSizes ['a'] [['a']]).sum = ([['a']] : List Word).length ∧
    ([['a']] : List Word).length ≤ get_score ['a'] [['a']] ∧
    (get_score ['a'] [['a']] = ([['a']] : List Word).length ↔
      ∀ n ∈ partitionSizes ['a'] [['a']], n = 1) :=
  C5_partition_sum_and_score_bound ['a'] [['a']] (by simp)

end Wordle
